import Mathlib

/-!
Verification of the lexical-analysis core of the `hack_compiler` repository
(Jack tokenizer): the token model (`src/tokens/mod.rs`), the text normalizer
(`src/utils.rs` + `JackTokenizer::clean_input`), the scanner
(`JackTokenizer::into_tokens`) and the token cursor
(`JackTokenizer::advance` / `has_more_tokens`), shallowly embedded over
`List Char` (Rust `String` / `chars()`) and `Nat` (Rust `usize` / `u16`).
-/

namespace HackCompiler

/-! ## Token model (src/tokens/mod.rs) -/

/-- Rust `String` contents as a list of characters. -/
abbrev Chars := List Char

/-- The 21 Jack keywords, `enum Keyword`. -/
inductive Keyword
  | Class | Constructor | Function | Method | Field | Static | Var
  | Int | Char | Boolean | Void | True | False | Null | This
  | Let | Do | If | Else | While | Return
deriving DecidableEq

/-- The 19 Jack symbols, `enum Symbol`. -/
inductive Symbol
  | CurlLeft | CurlRight | ParenthesisLeft | ParenthesisRight
  | SquareBracketLeft | SquareBracketRight | Dot | Comma | Semicolon
  | Plus | Minus | Mul | Divide | And | Or | LessThan | MoreThan
  | Equal | Tilte
deriving DecidableEq

/-- The five token kinds, `enum Token`. Rust `u16` payloads are `Nat`
(the scanner only produces values that fit, see `parseU16`); Rust `String`
payloads are `List Char`. -/
inductive Token
  | Keyword : Keyword → Token
  | Symbol : Symbol → Token
  | Identifier : List Char → Token
  | IntConst : Nat → Token
  | StringConst : List Char → Token
deriving DecidableEq

/-- `Keyword::to_str`. -/
def Keyword.to_str : Keyword → Chars
  | .Class => "class".data
  | .Constructor => "constructor".data
  | .Function => "function".data
  | .Method => "method".data
  | .Field => "field".data
  | .Static => "static".data
  | .Var => "var".data
  | .Int => "int".data
  | .Char => "char".data
  | .Boolean => "boolean".data
  | .Void => "void".data
  | .True => "true".data
  | .False => "false".data
  | .Null => "null".data
  | .This => "this".data
  | .Let => "let".data
  | .Do => "do".data
  | .If => "if".data
  | .Else => "else".data
  | .While => "while".data
  | .Return => "return".data

/-- `impl From<String> for Keyword`; the Rust impl panics on a
non-keyword string, modelled as `none`. -/
def Keyword.fromString? (value : Chars) : Option Keyword :=
  if value == "class".data then some .Class
  else if value == "constructor".data then some .Constructor
  else if value == "function".data then some .Function
  else if value == "method".data then some .Method
  else if value == "field".data then some .Field
  else if value == "static".data then some .Static
  else if value == "var".data then some .Var
  else if value == "int".data then some .Int
  else if value == "char".data then some .Char
  else if value == "boolean".data then some .Boolean
  else if value == "void".data then some .Void
  else if value == "true".data then some .True
  else if value == "false".data then some .False
  else if value == "null".data then some .Null
  else if value == "this".data then some .This
  else if value == "let".data then some .Let
  else if value == "do".data then some .Do
  else if value == "if".data then some .If
  else if value == "else".data then some .Else
  else if value == "while".data then some .While
  else if value == "return".data then some .Return
  else none

/-- `Keyword::is_keyword`: the Rust chain of 21 equality tests. -/
def Keyword.is_keyword (s : Chars) : Bool :=
  Keyword.Class.to_str == s || Keyword.Constructor.to_str == s
    || Keyword.Function.to_str == s || Keyword.Method.to_str == s
    || Keyword.Field.to_str == s || Keyword.Static.to_str == s
    || Keyword.Var.to_str == s || Keyword.Int.to_str == s
    || Keyword.Char.to_str == s || Keyword.Boolean.to_str == s
    || Keyword.Void.to_str == s || Keyword.True.to_str == s
    || Keyword.False.to_str == s || Keyword.Null.to_str == s
    || Keyword.This.to_str == s || Keyword.Let.to_str == s
    || Keyword.Do.to_str == s || Keyword.If.to_str == s
    || Keyword.Else.to_str == s || Keyword.While.to_str == s
    || Keyword.Return.to_str == s

/-- `Symbol::to_str`. Brace characters written with escapes. -/
def Symbol.to_str : Symbol → Chars
  | .CurlLeft => "\x7b".data
  | .CurlRight => "\x7d".data
  | .ParenthesisLeft => "(".data
  | .ParenthesisRight => ")".data
  | .SquareBracketLeft => "[".data
  | .SquareBracketRight => "]".data
  | .Dot => ".".data
  | .Comma => ",".data
  | .Semicolon => ";".data
  | .Plus => "+".data
  | .Minus => "-".data
  | .Mul => "*".data
  | .Divide => "/".data
  | .And => "&".data
  | .Or => "|".data
  | .LessThan => "<".data
  | .MoreThan => ">".data
  | .Equal => "=".data
  | .Tilte => "~".data

/-- `Symbol::to_char`: first char of `to_str`, `unwrap_or_default`
(Rust `char::default()` is the NUL character). -/
def Symbol.to_char (s : Symbol) : Char :=
  s.to_str.headD (Char.ofNat 0)

/-- `impl From<char> for Symbol`; the Rust impl panics on a
non-symbol character, modelled as `none`. -/
def Symbol.fromChar? (value : Char) : Option Symbol :=
  if value = '\x7b' then some .CurlLeft
  else if value = '\x7d' then some .CurlRight
  else if value = '(' then some .ParenthesisLeft
  else if value = ')' then some .ParenthesisRight
  else if value = '[' then some .SquareBracketLeft
  else if value = ']' then some .SquareBracketRight
  else if value = '.' then some .Dot
  else if value = ',' then some .Comma
  else if value = ';' then some .Semicolon
  else if value = '+' then some .Plus
  else if value = '-' then some .Minus
  else if value = '*' then some .Mul
  else if value = '/' then some .Divide
  else if value = '&' then some .And
  else if value = '|' then some .Or
  else if value = '<' then some .LessThan
  else if value = '>' then some .MoreThan
  else if value = '=' then some .Equal
  else if value = '~' then some .Tilte
  else none

/-- `Symbol::is_symbol`: the Rust chain of 19 character equality tests. -/
def Symbol.is_symbol (s : Char) : Bool :=
  Symbol.CurlLeft.to_char == s || Symbol.CurlRight.to_char == s
    || Symbol.ParenthesisLeft.to_char == s || Symbol.ParenthesisRight.to_char == s
    || Symbol.SquareBracketLeft.to_char == s || Symbol.SquareBracketRight.to_char == s
    || Symbol.Dot.to_char == s || Symbol.Comma.to_char == s
    || Symbol.Semicolon.to_char == s || Symbol.Plus.to_char == s
    || Symbol.Minus.to_char == s || Symbol.Mul.to_char == s
    || Symbol.Divide.to_char == s || Symbol.And.to_char == s
    || Symbol.Or.to_char == s || Symbol.LessThan.to_char == s
    || Symbol.MoreThan.to_char == s || Symbol.Equal.to_char == s
    || Symbol.Tilte.to_char == s

/-- `Symbol::to_xml`: the three markup-reserved symbols are escaped,
every other symbol is its `to_str`. -/
def Symbol.to_xml : Symbol → Chars
  | .LessThan => "&lt;".data
  | .MoreThan => "&gt;".data
  | .And => "&amp;".data
  | s => s.to_str

/-- `Token::to_xml`: the token payload as emitted between the tags
(Rust `u16::to_string` is decimal, modelled by `Nat.repr`). -/
def Token.to_xml : Token → Chars
  | .Keyword k => k.to_str
  | .Symbol s => s.to_xml
  | .Identifier i => i
  | .IntConst i => (Nat.repr i).data
  | .StringConst s => s

/-! ## Text normalizer (src/utils.rs, `JackTokenizer::clean_input`)

The three comment-stripping regexes of `remove_comments` are
`/\x2a\x2a[\w\W]*?\x2a/`-style patterns used with `Regex::replace_all`,
which removes successive non-overlapping leftmost matches. They are
modelled by direct recursion over the character list: a block opener with a
later closing `*` `/` is removed through the earliest such closer (the
non-greedy `*?`), scanning then resumes after the removed span, exactly as
`replace_all` resumes after a match. -/

/-- Drop through the earliest closing `*` `/` pair, returning the suffix
after it; `none` when no closer exists (the regex then has no match there,
nor anywhere later, since any later match would also need a closer). -/
def dropToClose : List Char → Option (List Char)
  | [] => none
  | '*' :: '/' :: rest => some rest
  | _ :: rest => dropToClose rest

theorem dropToClose_length : ∀ {l r : List Char}, dropToClose l = some r → r.length < l.length := by
  intro l
  induction l with
  | nil => intro r h; simp [dropToClose] at h
  | cons c rest ih =>
    intro r h
    rw [dropToClose.eq_def] at h
    split at h
    · exact absurd h (by simp)
    · simp only [Option.some.injEq] at h
      subst h
      rename_i rest2 heq
      injection heq with h1 h2
      subst h2; simp; omega
    · rename_i x2 rest2 heq
      injection heq with h1 h2
      subst h2
      have := ih h; simp; omega

/-- First pass of `remove_comments`: strip API comments
`/\x2a\x2a ... \x2a/` (non-greedy, spans line breaks). -/
def removeApiComments : List Char → List Char
  | '/' :: '*' :: '*' :: rest =>
    match h : dropToClose rest with
    | some rest2 => removeApiComments rest2
    | none => '/' :: '*' :: '*' :: removeApiComments rest
  | c :: rest => c :: removeApiComments rest
  | [] => []
termination_by l => l.length
decreasing_by
  · exact Nat.lt_trans (dropToClose_length h) (by simp; omega)
  · simp; omega
  · simp

/-- Second pass of `remove_comments`: strip range comments
`/\x2a ... \x2a/` (non-greedy, spans line breaks). -/
def removeRangeComments : List Char → List Char
  | '/' :: '*' :: rest =>
    match h : dropToClose rest with
    | some rest2 => removeRangeComments rest2
    | none => '/' :: '*' :: removeRangeComments rest
  | c :: rest => c :: removeRangeComments rest
  | [] => []
termination_by l => l.length
decreasing_by
  · exact Nat.lt_trans (dropToClose_length h) (by simp; omega)
  · simp; omega
  · simp

/-- Drop the rest of the line: everything up to but excluding the next
line-feed (regex `.` does not match a line feed). -/
def dropLine : List Char → List Char
  | [] => []
  | '\n' :: rest => '\n' :: rest
  | _ :: rest => dropLine rest

theorem dropLine_length : ∀ l : List Char, (dropLine l).length ≤ l.length := by
  intro l
  induction l with
  | nil => simp [dropLine]
  | cons c rest ih =>
    rw [dropLine.eq_def]
    split
    · simp
    · rename_i rest2 heq
      injection heq with h1 h2
      subst h2; simp
    · rename_i x2 rest2 heq
      injection heq with h1 h2
      subst h2
      have := ih; simp; omega

/-- Third pass of `remove_comments`: strip inline comments `//` to end of
line. -/
def removeInlineComments : List Char → List Char
  | '/' :: '/' :: rest => removeInlineComments (dropLine rest)
  | c :: rest => c :: removeInlineComments rest
  | [] => []
termination_by l => l.length
decreasing_by
  · have := dropLine_length rest; simp; omega
  · simp

/-- `remove_comments`: API comments, then range comments, then inline
comments. -/
def remove_comments (input : List Char) : List Char :=
  removeInlineComments (removeRangeComments (removeApiComments input))

/-- Character-level rewrite of the line-break regex replacement. -/
def lbToSpace (c : Char) : Char := if c = '\n' then ' ' else c

/-- Character-level rewrite of the tab regex replacement. -/
def tabToSpace (c : Char) : Char := if c = '\t' then ' ' else c

/-- Character-level rewrite of the carriage-return regex replacement. -/
def crToSpace (c : Char) : Char := if c = '\r' then ' ' else c

/-- `replace_line_breaks_with_single_space`. -/
def replace_line_breaks_with_single_space (input : List Char) : List Char :=
  input.map lbToSpace

/-- `replace_tabs_with_single_space`. -/
def replace_tabs_with_single_space (input : List Char) : List Char :=
  input.map tabToSpace

/-- `replace_carriage_returns_with_single_space`. -/
def replace_carriage_returns_with_single_space (input : List Char) : List Char :=
  input.map crToSpace

/-- Regex `" +" -> " "`: collapse each run of ASCII spaces to one space. -/
def collapseSpaces : List Char → List Char
  | ' ' :: ' ' :: rest => collapseSpaces (' ' :: rest)
  | c :: rest => c :: collapseSpaces rest
  | [] => []
termination_by l => l.length
decreasing_by
  · simp
  · simp

/-- Rust `char::is_whitespace` (the Unicode `White_Space` set), used by
`str::trim`. -/
def is_rust_whitespace (c : Char) : Bool :=
  c.toNat = 0x09 || c.toNat = 0x0A || c.toNat = 0x0B || c.toNat = 0x0C
    || c.toNat = 0x0D || c.toNat = 0x20 || c.toNat = 0x85 || c.toNat = 0xA0
    || c.toNat = 0x1680 || (0x2000 ≤ c.toNat && c.toNat ≤ 0x200A)
    || c.toNat = 0x2028 || c.toNat = 0x2029 || c.toNat = 0x202F
    || c.toNat = 0x205F || c.toNat = 0x3000

/-- Rust `str::trim`: remove leading and trailing whitespace. -/
def trimChars (l : List Char) : List Char :=
  ((l.dropWhile is_rust_whitespace).reverse.dropWhile is_rust_whitespace).reverse

/-- `replace_multi_spaces_with_single_space`: collapse space runs, then
`trim`. -/
def replace_multi_spaces_with_single_space (input : List Char) : List Char :=
  trimChars (collapseSpaces input)

/-- `JackTokenizer::clean_input`. -/
def clean_input (input : List Char) : List Char :=
  replace_multi_spaces_with_single_space
    (replace_carriage_returns_with_single_space
      (replace_tabs_with_single_space
        (replace_line_breaks_with_single_space
          (remove_comments input))))

/-! ## Lexical scanner (`JackTokenizer::into_tokens`) -/

/-- `str::parse::<u16>`: an optional leading plus sign, then one or more
ASCII digits whose value fits in 16 bits; anything else is an error. -/
def parseU16 (s : List Char) : Option Nat :=
  let digits := match s with
    | '+' :: rest => rest
    | _ => s
  if digits.isEmpty then none
  else if digits.all (fun c => c.isDigit) then
    let v := digits.foldl (fun a c => a * 10 + (c.toNat - 48)) 0
    if v ≤ 65535 then some v else none
  else none

theorem parseU16_le {s : List Char} {v : Nat} (h : parseU16 s = some v) : v ≤ 65535 := by
  unfold parseU16 at h
  simp only at h
  split_ifs at h with h1 h2 h3
  · simp only [Option.some.injEq] at h; omega

/-- Closing the accumulator into one token: keyword, else 16-bit integer,
else identifier (the `if`/`else if`/`else` chain at the top of the scan
loop; the `getD` supplies the value of the `From` impl's unreachable
panic arm, which is dead code under the `is_keyword` guard). -/
def classify (acc : List Char) : Token :=
  if Keyword.is_keyword acc then
    Token.Keyword ((Keyword.fromString? acc).getD Keyword.Class)
  else
    match parseU16 acc with
    | some u => Token.IntConst u
    | none => Token.Identifier acc

/-- Rust `char::is_alphanumeric` restricted to ASCII (every character the
claims exercise is ASCII; the Unicode-alphabetic extension plays no role in
any statement below). -/
def is_alphanumeric (c : Char) : Bool := c.isAlphanum

/-- One `while i < chars.len()` loop of `into_tokens`, with explicit fuel:
`none` means the fuel ran out, which on any in-vocabulary input cannot
happen with fuel `chars.length + 1` because every iteration advances `i`
by at least one. A character that is neither a space, a symbol, a double
quote, alphanumeric, nor an underscore matches none of the three `if`
bodies, so the Rust loop repeats with `i` unchanged: the final arm
recurses with an identical state and only the fuel decreasing. -/
def intoTokensAux : Nat → List Char → Nat → List Char → List Token → Option (List Token)
  | 0, _, _, _, _ => none
  | fuel + 1, chars, i, acc, tokens =>
    if h : i < chars.length then
      if chars[i] = ' ' ∨ Symbol.is_symbol chars[i] = true then
        intoTokensAux fuel chars (i + 1) []
          ((if acc.isEmpty then tokens else tokens ++ [classify acc]) ++
            (if Symbol.is_symbol chars[i] then
              [Token.Symbol ((Symbol.fromChar? chars[i]).getD Symbol.CurlLeft)]
            else []))
      else if chars[i] = '"' then
        intoTokensAux fuel chars
          (i + ((chars.drop (i + 1)).takeWhile (fun d => d ≠ '"')).length + 2) acc
          (tokens ++ [Token.StringConst ((chars.drop (i + 1)).takeWhile (fun d => d ≠ '"'))])
      else if is_alphanumeric chars[i] = true ∨ chars[i] = '_' then
        intoTokensAux fuel chars (i + 1) (acc ++ [chars[i]]) tokens
      else
        intoTokensAux fuel chars i acc tokens
    else
      some tokens

/-- `JackTokenizer::into_tokens`, started on the whole input with enough
fuel for any terminating run of the Rust loop. -/
def into_tokens (input : List Char) : Option (List Token) :=
  intoTokensAux (input.length + 1) input 0 [] []

/-! ## Token cursor (`JackTokenizer` struct, `new` / `advance` /
`has_more_tokens`) -/

/-- The `JackTokenizer` struct: the scanned sequence plus the three cursor
fields (the Rust `Rc<Token>` sharing is by-value here). -/
structure JackTokenizer where
  tokens : List Token
  current_token : Option Token
  current_token_index : Nat
  next_token : Option Token
deriving DecidableEq

/-- The cursor initialization done at the end of `JackTokenizer::new`
(`tokens.first()` / `tokens.get(1)`); reading the file, `clean_input` and
`into_tokens` are the separate front half of `new`. -/
def mkTokenizer (tokens : List Token) : JackTokenizer :=
  { tokens := tokens
    current_token := tokens[0]?
    current_token_index := 0
    next_token := tokens[1]? }

/-- `JackTokenizer::has_more_tokens`. -/
def JackTokenizer.has_more_tokens (t : JackTokenizer) : Bool :=
  t.current_token.isSome

/-- `JackTokenizer::advance`: `current := next.take()`, `next` is refetched
from `tokens` at the old index plus two, and the index is incremented. -/
def JackTokenizer.advance (t : JackTokenizer) : JackTokenizer :=
  { t with
    current_token := t.next_token
    next_token := t.tokens[t.current_token_index + 2]?
    current_token_index := t.current_token_index + 1 }

/-- `advance` iterated `k` times. -/
def advanceN (t : JackTokenizer) : Nat → JackTokenizer
  | 0 => t
  | k + 1 => advanceN t.advance k

/-! ## Cursor invariants -/

theorem advanceN_state : ∀ (k i : Nat) (ts : List Token),
    advanceN ⟨ts, ts[i]?, i, ts[i + 1]?⟩ k = ⟨ts, ts[i + k]?, i + k, ts[i + k + 1]?⟩ := by
  intro k
  induction k with
  | zero => intro i ts; simp [advanceN]
  | succ k ih =>
    intro i ts
    rw [advanceN]
    have h1 : JackTokenizer.advance ⟨ts, ts[i]?, i, ts[i + 1]?⟩ =
        ⟨ts, ts[i + 1]?, i + 1, ts[i + 1 + 1]?⟩ := rfl
    rw [h1, ih (i + 1) ts]
    have e : i + 1 + k = i + (k + 1) := by omega
    rw [e]

/-- The cursor field values after `k` calls to `advance` on a freshly
constructed tokenizer. -/
theorem advanceN_mkTokenizer (ts : List Token) (k : Nat) :
    advanceN (mkTokenizer ts) k = ⟨ts, ts[k]?, k, ts[k + 1]?⟩ := by
  have h0 : mkTokenizer ts = ⟨ts, ts[0]?, 0, ts[0 + 1]?⟩ := rfl
  rw [h0, advanceN_state k 0 ts]
  simp

/-- C5: after `advance()` has been called `k` times from the initial state,
the current token is the token at index `k` of the scanned sequence (absent
exactly when `k` is out of range), `has_more_tokens()` holds exactly while
`k < n`, and each `advance` sets current := next, refetches next from
position + 2, and increments the position. -/
theorem cursor_lookahead_invariant :
    ∀ (ts : List Token) (k : Nat),
      (advanceN (mkTokenizer ts) k).current_token = ts[k]? ∧
      ((advanceN (mkTokenizer ts) k).has_more_tokens = true ↔ k < ts.length) ∧
      ∀ t : JackTokenizer,
        t.advance.current_token = t.next_token ∧
        t.advance.next_token = t.tokens[t.current_token_index + 2]? ∧
        t.advance.current_token_index = t.current_token_index + 1 := by
  intro ts k
  refine ⟨by rw [advanceN_mkTokenizer], ?_, fun t => ⟨rfl, rfl, rfl⟩⟩
  rw [advanceN_mkTokenizer]
  show (ts[k]?).isSome = true ↔ k < ts.length
  rw [Option.isSome_iff_ne_none, ne_eq, List.getElem?_eq_none_iff]
  omega

/-- C6: once the cursor is exhausted (current token absent), any further
sequence of `advance()` calls keeps the current token absent; there is no
transition out of the exhausted state. -/
theorem exhausted_is_absorbing :
    ∀ (ts : List Token) (k j : Nat),
      (advanceN (mkTokenizer ts) k).current_token = none →
      (advanceN (mkTokenizer ts) (k + j)).current_token = none := by
  intro ts k j h
  rw [advanceN_mkTokenizer] at h ⊢
  simp only [List.getElem?_eq_none_iff] at h ⊢
  omega

/-- C6 witness: a one-token stream is exhausted after one `advance`, and
five further `advance` calls keep the current token absent. -/
theorem exhausted_is_absorbing_witness :
    (advanceN (mkTokenizer [Token.IntConst 1]) 1).current_token = none ∧
    (advanceN (mkTokenizer [Token.IntConst 1]) 6).current_token = none :=
  ⟨by rfl, exhausted_is_absorbing [Token.IntConst 1] 1 5 (by rfl)⟩

/-! ## Scanner behaviour on concrete inputs -/

/-- C1: the scanner drops a trailing accumulator at end of input: scanning
`"let x = 5"` yields only Keyword(let), Identifier(x), Symbol(=) — the
final IntegerConstant(5) is NOT produced, contradicting the claimed
trailing-token correctness (the loop exits with `acc = "5"` unflushed). -/
theorem trailing_token_dropped :
    into_tokens "let x = 5".data =
      some [Token.Keyword .Let, Token.Identifier "x".data, Token.Symbol .Equal] := by
  rfl

/-- C2: on the single-character input `"@"` — a character that is neither
a space, a symbol, a double quote, alphanumeric, nor an underscore — the
scan loop never advances `i`, so it never terminates: the fuel-indexed run
returns `none` for every fuel amount, contradicting the claimed
termination/classification of out-of-vocabulary characters. -/
theorem scanner_stuck_on_unknown_char :
    (∀ (fuel : Nat) (acc : List Char) (tokens : List Token),
      intoTokensAux fuel "@".data 0 acc tokens = none) ∧
    into_tokens "@".data = none := by
  have h1 : ∀ (fuel : Nat) (acc : List Char) (tokens : List Token),
      intoTokensAux fuel "@".data 0 acc tokens = none := by
    intro fuel
    induction fuel with
    | zero => intro acc tokens; rfl
    | succ f ih =>
      intro acc tokens
      rw [intoTokensAux]
      simp +decide [Symbol.is_symbol, Symbol.to_char, Symbol.to_str, is_alphanumeric, ih]
  exact ⟨h1, h1 2 [] []⟩

/-- C3: the scanner is neither total nor order-preserving on clean text: on
`ab"cd" x` the pending identifier run `ab` is emitted AFTER the
StringConstant `cd` that follows it in the source, and the trailing `x`
contributes to no token at all. -/
theorem tokens_out_of_order_after_quote :
    into_tokens "ab\"cd\" x".data =
      some [Token.StringConst "cd".data, Token.Identifier "ab".data] := by
  rfl

/-- C7: the scenario input scans to exactly the 13-token sequence of the
specification. -/
theorem scenario_class_main :
    into_tokens "class Main \x7b function void main() \x7b return; \x7d \x7d".data =
      some [Token.Keyword .Class, Token.Identifier "Main".data, Token.Symbol .CurlLeft,
        Token.Keyword .Function, Token.Keyword .Void, Token.Identifier "main".data,
        Token.Symbol .ParenthesisLeft, Token.Symbol .ParenthesisRight, Token.Symbol .CurlLeft,
        Token.Keyword .Return, Token.Symbol .Semicolon, Token.Symbol .CurlRight,
        Token.Symbol .CurlRight] := by
  rfl

/-! ## Serialization escaping -/

/-- C8: serialization escapes exactly the three markup-reserved characters
and only on Symbol payloads: `<` → `&lt;`, `>` → `&gt;`, `&` → `&amp;`;
each of the remaining 16 symbols emits its single character unchanged, and
Keyword, Identifier, IntegerConstant and StringConstant payloads are
emitted without any escaping. -/
theorem xml_escaping_exact :
    Symbol.to_xml .LessThan = "&lt;".data ∧
    Symbol.to_xml .MoreThan = "&gt;".data ∧
    Symbol.to_xml .And = "&amp;".data ∧
    (Symbol.to_xml .CurlLeft = Symbol.to_str .CurlLeft ∧
      Symbol.to_xml .CurlRight = Symbol.to_str .CurlRight ∧
      Symbol.to_xml .ParenthesisLeft = Symbol.to_str .ParenthesisLeft ∧
      Symbol.to_xml .ParenthesisRight = Symbol.to_str .ParenthesisRight ∧
      Symbol.to_xml .SquareBracketLeft = Symbol.to_str .SquareBracketLeft ∧
      Symbol.to_xml .SquareBracketRight = Symbol.to_str .SquareBracketRight ∧
      Symbol.to_xml .Dot = Symbol.to_str .Dot ∧
      Symbol.to_xml .Comma = Symbol.to_str .Comma ∧
      Symbol.to_xml .Semicolon = Symbol.to_str .Semicolon ∧
      Symbol.to_xml .Plus = Symbol.to_str .Plus ∧
      Symbol.to_xml .Minus = Symbol.to_str .Minus ∧
      Symbol.to_xml .Mul = Symbol.to_str .Mul ∧
      Symbol.to_xml .Divide = Symbol.to_str .Divide ∧
      Symbol.to_xml .Or = Symbol.to_str .Or ∧
      Symbol.to_xml .Equal = Symbol.to_str .Equal ∧
      Symbol.to_xml .Tilte = Symbol.to_str .Tilte) ∧
    (∀ s : Symbol, (Symbol.to_str s).length = 1) ∧
    (∀ k : Keyword, Token.to_xml (.Keyword k) = k.to_str) ∧
    (∀ i : List Char, Token.to_xml (.Identifier i) = i) ∧
    (∀ n : Nat, Token.to_xml (.IntConst n) = (Nat.repr n).data) ∧
    (∀ s : List Char, Token.to_xml (.StringConst s) = s) := by
  refine ⟨rfl, rfl, rfl,
    ⟨rfl, rfl, rfl, rfl, rfl, rfl, rfl, rfl, rfl, rfl, rfl, rfl, rfl, rfl, rfl, rfl⟩,
    ?_, fun k => rfl, fun i => rfl, fun n => rfl, fun s => rfl⟩
  intro s
  cases s <;> rfl

/-! ## Integer-constant range -/

/-- C9 counterexample: the numeral 40000 exceeds the claimed range
[0, 32767] yet the scanner emits it as an IntegerConstant with its
out-of-range value (Rust parses the accumulator as `u16`, whose range is
[0, 65535]). -/
theorem intconst_out_of_jack_range :
    into_tokens "40000;".data =
      some [Token.IntConst 40000, Token.Symbol .Semicolon] ∧ 32767 < 40000 := by
  exact ⟨by rfl, by norm_num⟩

theorem classify_intconst_le {acc : List Char} {n : Nat}
    (h : classify acc = Token.IntConst n) : n ≤ 65535 := by
  unfold classify at h
  split at h
  · exact Token.noConfusion h
  · split at h
    · rename_i u hp
      simp only [Token.IntConst.injEq] at h
      subst h
      exact parseU16_le hp
    · exact Token.noConfusion h

theorem intoTokensAux_intconst_le :
    ∀ (fuel : Nat) (chars : List Char) (i : Nat) (acc : List Char) (tokens ts : List Token),
      intoTokensAux fuel chars i acc tokens = some ts →
      (∀ n, Token.IntConst n ∈ tokens → n ≤ 65535) →
      ∀ n, Token.IntConst n ∈ ts → n ≤ 65535 := by
  intro fuel
  induction fuel with
  | zero => intro chars i acc tokens ts h; simp [intoTokensAux] at h
  | succ f ih =>
    intro chars i acc tokens ts h hinv
    rw [intoTokensAux] at h
    split at h
    · split at h
      · refine ih _ _ _ _ _ h ?_
        intro n hn
        rcases List.mem_append.mp hn with hn | hn
        · split at hn
          · exact hinv n hn
          · rcases List.mem_append.mp hn with hn | hn
            · exact hinv n hn
            · simp only [List.mem_singleton] at hn
              exact classify_intconst_le hn.symm
        · split at hn
          · simp only [List.mem_singleton] at hn
            exact Token.noConfusion hn
          · simp at hn
      · split at h
        · refine ih _ _ _ _ _ h ?_
          intro n hn
          rcases List.mem_append.mp hn with hn | hn
          · exact hinv n hn
          · simp only [List.mem_singleton] at hn
            exact Token.noConfusion hn
        · split at h
          · exact ih _ _ _ _ _ h hinv
          · exact ih _ _ _ _ _ h hinv
    · simp only [Option.some.injEq] at h
      subst h
      exact hinv

/-- C9 amended: every IntegerConstant token produced by the scanner carries
an unsigned value in [0, 65535] (the `u16` range, not the Jack range
[0, 32767]); a numeral whose value exceeds 65535 fails the integer parse
and is classified as an Identifier instead. -/
theorem intconst_within_u16 :
    (∀ (input : List Char) (ts : List Token), into_tokens input = some ts →
      ∀ n, Token.IntConst n ∈ ts → n ≤ 65535) ∧
    into_tokens "70000;".data =
      some [Token.Identifier "70000".data, Token.Symbol .Semicolon] := by
  refine ⟨?_, by rfl⟩
  intro input ts h
  exact intoTokensAux_intconst_le _ _ _ _ _ _ h (by simp)

/-- C9 witness: the amended bound applied to the concrete scan of
`"40000;"`, whose IntegerConstant token the claim theorem bounds. -/
theorem intconst_within_u16_witness :
    into_tokens "40000;".data = some [Token.IntConst 40000, Token.Symbol .Semicolon] ∧
    40000 ≤ 65535 :=
  ⟨by rfl, intconst_within_u16.1 "40000;".data [Token.IntConst 40000, Token.Symbol .Semicolon]
    (by rfl) 40000 (by simp)⟩

/-! ## Unterminated string constant -/

/-- C10: when the scan reaches a double quote with no matching closing
quote anywhere after it, the scanner does not fail: with at least two fuel
steps left it emits one StringConst token holding every character from just
after the opening quote to the end of the input, then terminates normally
(the cursor jumps past the end of the text), producing no further tokens —
in particular a still-pending accumulator is discarded. -/
theorem unterminated_string_runs_to_end :
    ∀ (chars : List Char) (i : Nat) (acc : List Char) (tokens : List Token) (fuel : Nat),
      chars[i]? = some '"' → (∀ c ∈ chars.drop (i + 1), c ≠ '"') → 2 ≤ fuel →
      intoTokensAux fuel chars i acc tokens =
        some (tokens ++ [Token.StringConst (chars.drop (i + 1))]) := by
  intro chars i acc tokens fuel hq hnc hf
  obtain ⟨f, rfl⟩ : ∃ f, fuel = f + 1 + 1 := ⟨fuel - 2, by omega⟩
  obtain ⟨hlt, hget⟩ := List.getElem?_eq_some.mp hq
  have hsp : ¬(chars[i] = ' ' ∨ Symbol.is_symbol chars[i] = true) := by
    rw [hget]; decide
  have htw : (chars.drop (i + 1)).takeWhile (fun d => d ≠ '"') = chars.drop (i + 1) :=
    List.takeWhile_eq_self_iff.mpr (by intro x hx; simpa using hnc x hx)
  rw [intoTokensAux, dif_pos hlt, if_neg hsp, if_pos hget, htw]
  rw [intoTokensAux]
  have hout : ¬(i + (chars.drop (i + 1)).length + 2 < chars.length) := by
    rw [List.length_drop]; omega
  rw [dif_neg hout]

/-! ## Normalization idempotence

`clean_input` is NOT idempotent in general: removing a complete block
comment can splice its neighbours into a brand-new block comment, which the
single regex pass does not rescan but a second `clean_input` removes
(`remove_comments "x//\x2ac\x2a/\x2ay\x2a/z" = "x/\x2ay\x2a/z"`).
On cleaned text that comment removal leaves unchanged, the remaining
whitespace passes are fixed: the cleaned text has no line break, tab or
carriage return, no two adjacent spaces, and no leading or trailing
whitespace. -/

/-- Two adjacent characters are not both ASCII spaces. -/
def spaceApart (a b : Char) : Prop := ¬(a = ' ' ∧ b = ' ')

theorem mem_collapseSpaces {a : Char} : ∀ {l : List Char}, a ∈ collapseSpaces l → a ∈ l := by
  intro l
  induction l using collapseSpaces.induct with
  | case1 rest ih =>
    intro h
    rw [collapseSpaces] at h
    have := ih h
    simp at this ⊢
    tauto
  | case2 c rest hg ih =>
    intro h
    rw [collapseSpaces] at h
    · rcases List.mem_cons.mp h with h | h
      · simp [h]
      · exact List.mem_cons_of_mem c (ih h)
    · exact hg
  | case3 =>
    intro h
    simp [collapseSpaces] at h

theorem head?_collapseSpaces : ∀ (l : List Char), (collapseSpaces l).head? = l.head? := by
  intro l
  induction l using collapseSpaces.induct with
  | case1 rest ih =>
    rw [collapseSpaces]
    rw [ih]
    rfl
  | case2 c rest hg ih =>
    rw [collapseSpaces]
    · rfl
    · exact hg
  | case3 => rw [collapseSpaces]

theorem chain'_collapseSpaces : ∀ (l : List Char), List.Chain' spaceApart (collapseSpaces l) := by
  intro l
  induction l using collapseSpaces.induct with
  | case1 rest ih =>
    rw [collapseSpaces]
    exact ih
  | case2 c rest hg ih =>
    rw [collapseSpaces]
    · rw [List.chain'_cons']
      refine ⟨?_, ih⟩
      intro y hy
      rw [head?_collapseSpaces, Option.mem_def] at hy
      intro ⟨hc, hys⟩
      subst hc
      cases rest with
      | nil => simp at hy
      | cons d rest2 =>
        simp only [List.head?_cons, Option.some.injEq] at hy
        subst hy
        exact hg rest2 rfl (by rw [hys])
    · exact hg
  | case3 => simp [collapseSpaces]

theorem collapseSpaces_eq_self : ∀ {l : List Char}, List.Chain' spaceApart l → collapseSpaces l = l := by
  intro l
  induction l using collapseSpaces.induct with
  | case1 rest ih =>
    intro h
    have h2 := (List.chain'_cons'.mp h).1 ' ' (by simp)
    exact absurd ⟨rfl, rfl⟩ h2
  | case2 c rest hg ih =>
    intro h
    rw [collapseSpaces]
    · rw [ih h.tail]
    · exact hg
  | case3 => intro h; rw [collapseSpaces]

theorem head?_dropWhile {p : Char → Bool} {c : Char} :
    ∀ {l : List Char}, (l.dropWhile p).head? = some c → p c = false := by
  intro l
  induction l with
  | nil => intro h; simp [List.dropWhile] at h
  | cons x xs ih =>
    intro h
    rw [List.dropWhile_cons] at h
    split at h <;> rename_i hp
    · exact ih h
    · simp only [List.head?_cons, Option.some.injEq] at h
      subst h
      simpa using hp

theorem dropWhile_eq_self_of_head {p : Char → Bool} {l : List Char}
    (h : ∀ c, l.head? = some c → p c = false) : l.dropWhile p = l := by
  cases l with
  | nil => rfl
  | cons x xs =>
    rw [List.dropWhile_cons, if_neg]
    simp [h x rfl]

theorem getLast?_dropWhile {p : Char → Bool} :
    ∀ {l : List Char}, l.dropWhile p ≠ [] → (l.dropWhile p).getLast? = l.getLast? := by
  intro l
  induction l with
  | nil => intro h; simp [List.dropWhile] at h
  | cons x xs ih =>
    intro h
    rw [List.dropWhile_cons]
    rw [List.dropWhile_cons] at h
    split at h <;> rename_i hp
    · rw [if_pos hp, ih h]
      cases xs with
      | nil => simp [List.dropWhile] at h
      | cons y ys => rw [List.getLast?_cons_cons]
    · rw [if_neg hp]

theorem head?_trimChars {l : List Char} {c : Char}
    (h : (trimChars l).head? = some c) : is_rust_whitespace c = false := by
  unfold trimChars at h
  rw [List.head?_reverse] at h
  have hne : (l.dropWhile is_rust_whitespace).reverse.dropWhile is_rust_whitespace ≠ [] := by
    intro he
    rw [he] at h
    simp at h
  rw [getLast?_dropWhile hne, List.getLast?_reverse] at h
  exact head?_dropWhile h

theorem getLast?_trimChars {l : List Char} {c : Char}
    (h : (trimChars l).getLast? = some c) : is_rust_whitespace c = false := by
  unfold trimChars at h
  rw [List.getLast?_reverse] at h
  exact head?_dropWhile h

theorem trimChars_eq_self {l : List Char}
    (hhead : ∀ c, l.head? = some c → is_rust_whitespace c = false)
    (hlast : ∀ c, l.getLast? = some c → is_rust_whitespace c = false) :
    trimChars l = l := by
  unfold trimChars
  rw [dropWhile_eq_self_of_head hhead]
  rw [dropWhile_eq_self_of_head (by intro c hc; rw [List.head?_reverse] at hc; exact hlast c hc)]
  exact List.reverse_reverse l

theorem chain'_reverse_spaceApart {l : List Char} (h : List.Chain' spaceApart l) :
    List.Chain' spaceApart l.reverse := by
  rw [List.chain'_reverse]
  exact h.imp (fun a b hab => fun ⟨h1, h2⟩ => hab ⟨h2, h1⟩)

theorem chain'_trimChars {l : List Char} (h : List.Chain' spaceApart l) :
    List.Chain' spaceApart (trimChars l) := by
  unfold trimChars
  exact chain'_reverse_spaceApart
    (((chain'_reverse_spaceApart (h.suffix (List.dropWhile_suffix _))).suffix
      (List.dropWhile_suffix _)))

theorem mem_trimChars {a : Char} {l : List Char} (h : a ∈ trimChars l) : a ∈ l := by
  unfold trimChars at h
  rw [List.mem_reverse] at h
  have h2 := (List.dropWhile_sublist _).subset h
  rw [List.mem_reverse] at h2
  exact (List.dropWhile_sublist _).subset h2

theorem mapped_char_not_ctrl (d : Char) :
    crToSpace (tabToSpace (lbToSpace d)) ≠ '\n' ∧
    crToSpace (tabToSpace (lbToSpace d)) ≠ '\t' ∧
    crToSpace (tabToSpace (lbToSpace d)) ≠ '\r' := by
  unfold crToSpace tabToSpace lbToSpace
  split_ifs with h1 h2 h3 h4 h5 h6 h7 <;>
    refine ⟨?_, ?_, ?_⟩ <;> first | decide | simp_all

theorem map_id_of_mem {f : Char → Char} :
    ∀ {l : List Char}, (∀ c ∈ l, f c = c) → l.map f = l := by
  intro l
  induction l with
  | nil => intro h; rfl
  | cons x xs ih =>
    intro h
    rw [List.map_cons, h x (by simp), ih (fun c hc => h c (List.mem_cons_of_mem x hc))]

/-- C4 counterexample: `clean_input` is not idempotent. On the input
`x//\x2ac\x2a/\x2ay\x2a/z`, the range-comment pass removes `/\x2ac\x2a/`
and thereby splices the remaining characters into the brand-new block
comment `/\x2ay\x2a/`, which survives the first pass (the regex engine
does not rescan replaced text) but is stripped by a second pass. -/
theorem clean_input_not_idempotent :
    clean_input (clean_input "x//*c*/*y*/z".data) ≠ clean_input "x//*c*/*y*/z".data := by
  have h1 : clean_input "x//*c*/*y*/z".data = "x/*y*/z".data := by
    show clean_input ['x', '/', '/', '*', 'c', '*', '/', '*', 'y', '*', '/', 'z'] =
      ['x', '/', '*', 'y', '*', '/', 'z']
    simp [clean_input, remove_comments, removeApiComments, removeRangeComments,
      removeInlineComments, dropToClose, dropLine, replace_line_breaks_with_single_space,
      replace_tabs_with_single_space, replace_carriage_returns_with_single_space,
      replace_multi_spaces_with_single_space, collapseSpaces, trimChars,
      lbToSpace, tabToSpace, crToSpace, is_rust_whitespace]
  have h2 : clean_input "x/*y*/z".data = "xz".data := by
    show clean_input ['x', '/', '*', 'y', '*', '/', 'z'] = ['x', 'z']
    simp [clean_input, remove_comments, removeApiComments, removeRangeComments,
      removeInlineComments, dropToClose, dropLine, replace_line_breaks_with_single_space,
      replace_tabs_with_single_space, replace_carriage_returns_with_single_space,
      replace_multi_spaces_with_single_space, collapseSpaces, trimChars,
      lbToSpace, tabToSpace, crToSpace, is_rust_whitespace]
  rw [h1, h2]
  decide

/-- C4 amended: normalization is idempotent on every input whose
normalized form the comment-removal pass leaves unchanged (equivalently,
whose normalized form contains no residual comment pattern): for such
inputs `clean_input (clean_input s) = clean_input s`. Unconditional
idempotence fails, because comment removal can splice the surroundings of
a removed block comment into a new comment pattern that only a second
pass strips (see the counterexample). -/
theorem clean_input_idempotent_of_comment_free :
    ∀ input : List Char,
      remove_comments (clean_input input) = clean_input input →
      clean_input (clean_input input) = clean_input input := by
  intro input h
  have e : clean_input input = trimChars (collapseSpaces
      ((((remove_comments input).map lbToSpace).map tabToSpace).map crToSpace)) := rfl
  have hchars : ∀ c ∈ clean_input input, c ≠ '\n' ∧ c ≠ '\t' ∧ c ≠ '\r' := by
    intro c hc
    rw [e] at hc
    have hc2 := mem_collapseSpaces (mem_trimChars hc)
    rw [List.map_map, List.map_map] at hc2
    obtain ⟨d, _, hd⟩ := List.mem_map.mp hc2
    subst hd
    exact mapped_char_not_ctrl d
  have hlb : (clean_input input).map lbToSpace = clean_input input :=
    map_id_of_mem (fun c hc => by unfold lbToSpace; rw [if_neg (hchars c hc).1])
  have htab : (clean_input input).map tabToSpace = clean_input input :=
    map_id_of_mem (fun c hc => by unfold tabToSpace; rw [if_neg (hchars c hc).2.1])
  have hcr : (clean_input input).map crToSpace = clean_input input :=
    map_id_of_mem (fun c hc => by unfold crToSpace; rw [if_neg (hchars c hc).2.2])
  have hchain : List.Chain' spaceApart (clean_input input) := by
    rw [e]
    exact chain'_trimChars (chain'_collapseSpaces _)
  have hcollapse : collapseSpaces (clean_input input) = clean_input input :=
    collapseSpaces_eq_self hchain
  have htrim : trimChars (clean_input input) = clean_input input := by
    refine trimChars_eq_self ?_ ?_
    · intro c hc
      rw [e] at hc
      exact head?_trimChars hc
    · intro c hc
      rw [e] at hc
      exact getLast?_trimChars hc
  have e2 : clean_input (clean_input input) = trimChars (collapseSpaces
      ((((remove_comments (clean_input input)).map lbToSpace).map tabToSpace).map crToSpace)) :=
    rfl
  rw [e2, h, hlb, htab, hcr, hcollapse, htrim]

/-- C4 witness: a comment-free input with multiple spaces and a line break
satisfies the hypothesis, and normalizing twice returns the once-normalized
text. -/
theorem clean_input_idempotent_witness :
    remove_comments (clean_input "a  b\nc ".data) = clean_input "a  b\nc ".data ∧
    clean_input (clean_input "a  b\nc ".data) = clean_input "a  b\nc ".data := by
  have hyp : remove_comments (clean_input "a  b\nc ".data) = clean_input "a  b\nc ".data := by
    have h1 : clean_input "a  b\nc ".data = "a b c".data := by
      show clean_input ['a', ' ', ' ', 'b', '\n', 'c', ' '] = ['a', ' ', 'b', ' ', 'c']
      simp [clean_input, remove_comments, removeApiComments, removeRangeComments,
        removeInlineComments, dropToClose, dropLine, replace_line_breaks_with_single_space,
        replace_tabs_with_single_space, replace_carriage_returns_with_single_space,
        replace_multi_spaces_with_single_space, collapseSpaces, trimChars,
        lbToSpace, tabToSpace, crToSpace, is_rust_whitespace]
    rw [h1]
    show remove_comments ['a', ' ', 'b', ' ', 'c'] = ['a', ' ', 'b', ' ', 'c']
    simp [remove_comments, removeApiComments, removeRangeComments,
      removeInlineComments, dropToClose, dropLine]
  exact ⟨hyp, clean_input_idempotent_of_comment_free "a  b\nc ".data hyp⟩

/-- C10 witness: scanning `ab "xy` — an identifier, then an opening quote
never matched before end of input — yields Identifier(ab) followed by
StringConst(xy) and nothing else. -/
theorem unterminated_string_runs_to_end_witness :
    ("ab \"xy".data)[3]? = some '"' ∧
    intoTokensAux 4 "ab \"xy".data 3 [] [Token.Identifier "ab".data] =
      some [Token.Identifier "ab".data, Token.StringConst "xy".data] :=
  ⟨by rfl, unterminated_string_runs_to_end "ab \"xy".data 3 [] [Token.Identifier "ab".data] 4
    (by rfl) (by decide) (by omega)⟩

end HackCompiler
